import Mathlib

/-!
Verification of the fuzzy speed controller in `src/main.py`.

The repository defines three fuzzy input variables (weather, road, obstacle),
one output variable (speed), triangular membership functions, five Mamdani
rules, and a simulation loop that applies the defuzzified speed delta to a
running vehicle speed with a non-negative clamp.

The membership-function shapes, the rule base and the simulation-loop
consumer are embedded directly from `src/main.py`.  The inference engine
itself (`fuzz.trimf` evaluation, rule firing, aggregation and centroid
defuzzification) lives in the third-party scikit-fuzzy library, which is not
part of this repository's sources; those parts are modelled from the
specification (sections 4.1 to 4.4), as marked on each definition.

Crisp values and membership degrees are rationals.
-/

namespace ML3

/-- Modelled from the spec (section 4.1); the evaluation code of
`fuzz.trimf` is in the scikit-fuzzy library, not in this repository.
A triangular membership function is given by ascending x-coordinates
`(a, b, c)` with `a ≤ b ≤ c`. -/
structure Trimf where
  a : ℚ
  b : ℚ
  c : ℚ
deriving DecidableEq

/-- Modelled from the spec (section 4.1): degree is 0 at and before `a`,
rises linearly to 1 at `b`, falls linearly to 0 at `c`, and is 0 at and
after `c`; a degenerate edge (`a = b` or `b = c`) keeps degree 1 at `b`. -/
def Trimf.degree_at (t : Trimf) (x : ℚ) : ℚ :=
  if x < t.a then 0
  else if x < t.b then (x - t.a) / (t.b - t.a)
  else if x = t.b then 1
  else if x < t.c then (t.c - x) / (t.c - t.b)
  else 0

/-- The three antecedent (input) variables of `src/main.py` lines 113-115. -/
inductive VarName
  | weather
  | road
  | obstacle
deriving DecidableEq

/-- `weather['clear'] = fuzz.trimf(weather.universe, [0, 0, 4])` (line 121). -/
def weather_clear : Trimf := ⟨0, 0, 4⟩

/-- `weather['rain'] = fuzz.trimf(weather.universe, [4, 7, 10])` (line 122). -/
def weather_rain : Trimf := ⟨4, 7, 10⟩

/-- `road['dry'] = fuzz.trimf(road.universe, [0, 0, 4])` (line 124). -/
def road_dry : Trimf := ⟨0, 0, 4⟩

/-- `road['wet'] = fuzz.trimf(road.universe, [4, 7, 10])` (line 125). -/
def road_wet : Trimf := ⟨4, 7, 10⟩

/-- `road['slippery'] = fuzz.trimf(road.universe, [6, 10, 10])` (line 126). -/
def road_slippery : Trimf := ⟨6, 10, 10⟩

/-- `obstacle['far'] = fuzz.trimf(obstacle.universe, [50, 100, 100])` (line 128). -/
def obstacle_far : Trimf := ⟨50, 100, 100⟩

/-- `obstacle['close'] = fuzz.trimf(obstacle.universe, [0, 0, 30])` (line 129). -/
def obstacle_close : Trimf := ⟨0, 0, 30⟩

/-- `speed['decrease'] = fuzz.trimf(speed.universe, [-10, -10, 0])` (line 131). -/
def speed_decrease : Trimf := ⟨-10, -10, 0⟩

/-- `speed['stable'] = fuzz.trimf(speed.universe, [-2, 0, 2])` (line 132). -/
def speed_stable : Trimf := ⟨-2, 0, 2⟩

/-- `speed['increase'] = fuzz.trimf(speed.universe, [0, 10, 10])` (line 133). -/
def speed_increase : Trimf := ⟨0, 10, 10⟩

/-- The named input terms used by the rule base of `src/main.py`. -/
inductive InTerm
  | clear
  | rain
  | dry
  | wet
  | slippery
  | far
  | close
deriving DecidableEq

/-- The variable each input term belongs to (lines 121-129). -/
def InTerm.var : InTerm → VarName
  | .clear => .weather
  | .rain => .weather
  | .dry => .road
  | .wet => .road
  | .slippery => .road
  | .far => .obstacle
  | .close => .obstacle

/-- The membership function attached to each input term (lines 121-129). -/
def InTerm.mf : InTerm → Trimf
  | .clear => weather_clear
  | .rain => weather_rain
  | .dry => road_dry
  | .wet => road_wet
  | .slippery => road_slippery
  | .far => obstacle_far
  | .close => obstacle_close

/-- The named terms of the output variable `speed` (lines 131-133). -/
inductive OutTerm
  | decrease
  | stable
  | increase
deriving DecidableEq

/-- The membership function attached to each output term (lines 131-133). -/
def OutTerm.mf : OutTerm → Trimf
  | .decrease => speed_decrease
  | .stable => speed_stable
  | .increase => speed_increase

/-- Antecedent expression tree: leaf terms combined by AND and OR,
as in the spec (section 3, RuleTerm combinators). -/
inductive AntExpr
  | leaf (t : InTerm)
  | and (p q : AntExpr)
  | or (p q : AntExpr)
deriving DecidableEq

/-- A crisp input assignment: each input variable optionally carries a value. -/
def Assign : Type := VarName → Option ℚ

/-- Modelled from the spec (section 4.3); the rule-evaluation code of
`ctrl.Rule` is in the scikit-fuzzy library, not in this repository.
A leaf evaluates to the term's membership degree at the assigned crisp
value, an AND node to the `min` of its children, an OR node to the `max`;
a leaf whose variable is missing from the assignment contributes 0
(the rule is treated as non-firing rather than erroring). -/
def fireStrength (σ : Assign) : AntExpr → ℚ
  | .leaf t =>
      match σ t.var with
      | none => 0
      | some x => t.mf.degree_at x
  | .and p q => min (fireStrength σ p) (fireStrength σ q)
  | .or p q => max (fireStrength σ p) (fireStrength σ q)

/-- Does the antecedent expression reference the given variable? -/
def AntExpr.mentions : AntExpr → VarName → Bool
  | .leaf t, v => t.var == v
  | .and p q, v => p.mentions v || q.mentions v
  | .or p q, v => p.mentions v || q.mentions v

/-- A rule: identifier, antecedent expression, single consequent term on
the output variable `speed` (as in lines 136-140 of `src/main.py`). -/
structure Rule where
  id : String
  ant : AntExpr
  cons : OutTerm
deriving DecidableEq

/-- `rule1 = ctrl.Rule(road['slippery'] & obstacle['close'], speed['decrease'])` (line 136). -/
def rule1 : Rule := ⟨"R1", .and (.leaf .slippery) (.leaf .close), .decrease⟩

/-- `rule2 = ctrl.Rule(weather['rain'] & road['wet'], speed['decrease'])` (line 137). -/
def rule2 : Rule := ⟨"R2", .and (.leaf .rain) (.leaf .wet), .decrease⟩

/-- `rule3 = ctrl.Rule(road['dry'] & weather['clear'] & obstacle['far'], speed['increase'])`
(line 138); the Python `&` associates to the left. -/
def rule3 : Rule := ⟨"R3", .and (.and (.leaf .dry) (.leaf .clear)) (.leaf .far), .increase⟩

/-- `rule4 = ctrl.Rule(obstacle['close'], speed['decrease'])` (line 139). -/
def rule4 : Rule := ⟨"R4", .leaf .close, .decrease⟩

/-- `rule5 = ctrl.Rule(road['wet'], speed['stable'])` (line 140). -/
def rule5 : Rule := ⟨"R5", .leaf .wet, .stable⟩

/-- The rule base handed to `ctrl.ControlSystem` (line 143). -/
def rules : List Rule := [rule1, rule2, rule3, rule4, rule5]

/-- Modelled from the spec (section 4.4 step 3); the aggregation code of
`ctrl.ControlSystem` is in the scikit-fuzzy library, not in this
repository.  The aggregated strength of an output term is the maximum
fire strength over all rules whose consequent is that term, folded as a
running maximum starting from 0. -/
def aggStrength (σ : Assign) (t : OutTerm) : ℚ :=
  ((rules.filter (fun r => r.cons == t)).map (fun r => fireStrength σ r.ant)).foldl max 0

/-- The output terms of the variable `speed`, in definition order. -/
def outTerms : List OutTerm := [.decrease, .stable, .increase]

/-- Modelled from the spec (section 4.4 step 4); the defuzzification code
is in the scikit-fuzzy library, not in this repository.  The degree of the
aggregated fuzzy output set at a sample point: the running maximum over
all output terms of the clipped degree `min (degree_at x) (aggStrength)`. -/
def outputDegree (σ : Assign) (x : ℚ) : ℚ :=
  (outTerms.map (fun t => min (t.mf.degree_at x) (aggStrength σ t))).foldl max 0

/-- The sampling universe of the output variable `speed`:
`np.arange(-10, 11, 1)` from line 118 of `src/main.py`, materialized. -/
def speedUniverse : List ℚ :=
  [-10, -9, -8, -7, -6, -5, -4, -3, -2, -1, 0, 1, 2, 3, 4, 5, 6, 7, 8, 9, 10]

/-- Modelled from the spec (section 4.4): centroid defuzzification over the
unit-step samples; when the denominator is zero (no rule fired) the output
variable is absent from the result, hence the `Option`. -/
def evaluate (σ : Assign) : Option ℚ :=
  if (speedUniverse.map (fun x => outputDegree σ x)).sum = 0 then none
  else some ((speedUniverse.map (fun x => x * outputDegree σ x)).sum
    / (speedUniverse.map (fun x => outputDegree σ x)).sum)

/-- The input assignment built by the simulation loop (lines 162-164 of
`src/main.py`), including the clamping of each sensor reading to its
universe bounds. -/
def mkAssign (w r o : ℚ) : Assign := fun v =>
  match v with
  | .weather => some (min (max w 0) 10)
  | .road => some (min (max r 0) 10)
  | .obstacle => some (min (max o 0) 100)

/-- One tick of the simulation-loop consumer (lines 162-174 of
`src/main.py`): evaluate the controller on the sensor readings, read the
speed output with default 0 when absent, add it to the vehicle speed and
clamp to the non-negative floor. -/
def carStep (s w r o : ℚ) : ℚ :=
  max 0 (s + (evaluate (mkAssign w r o)).getD 0)

/-- The output universe as the specification words it: unit steps over the
integer universe of the output variable, from -10 to 10. -/
def specSamples : List ℚ := (List.range 21).map (fun i : ℕ => (i : ℚ) - 10)

/-- The degree of the aggregated fuzzy output set as the specification
words it: the max over all consequent terms of the clipped degree
`min (degree_at x) (aggregated strength)`. -/
def specDegree (σ : Assign) (x : ℚ) : ℚ :=
  max (min (OutTerm.decrease.mf.degree_at x) (aggStrength σ .decrease))
    (max (min (OutTerm.stable.mf.degree_at x) (aggStrength σ .stable))
      (min (OutTerm.increase.mf.degree_at x) (aggStrength σ .increase)))

/-- The centroid as the specification words it:
`sum(x * degree(x)) / sum(degree(x))` over all sample points. -/
def specCentroid (σ : Assign) : ℚ :=
  (specSamples.map (fun x => x * specDegree σ x)).sum
    / (specSamples.map (fun x => specDegree σ x)).sum

/-- An input assignment that lacks a value for the variable `road`. -/
def missingRoad : Assign := fun v =>
  match v with
  | .weather => some 0
  | .road => none
  | .obstacle => some 0

set_option maxRecDepth 16000

/-- A well-formed triangular membership function only produces degrees
at or above 0. -/
theorem Trimf.degree_nonneg (t : Trimf) (hab : t.a ≤ t.b) (hbc : t.b ≤ t.c) (x : ℚ) :
    0 ≤ t.degree_at x := by
  unfold Trimf.degree_at
  split_ifs with h1 h2 h3 h4
  · exact le_refl 0
  · have hax : t.a ≤ x := not_lt.mp h1
    exact div_nonneg (by linarith) (by linarith)
  · exact zero_le_one
  · have hbx : t.b ≤ x := not_lt.mp h2
    exact div_nonneg (by linarith) (by linarith)
  · exact le_refl 0

/-- A well-formed triangular membership function only produces degrees
at or below 1. -/
theorem Trimf.degree_le_one (t : Trimf) (hab : t.a ≤ t.b) (hbc : t.b ≤ t.c) (x : ℚ) :
    t.degree_at x ≤ 1 := by
  unfold Trimf.degree_at
  split_ifs with h1 h2 h3 h4
  · exact zero_le_one
  · have hax : t.a ≤ x := not_lt.mp h1
    have hab2 : t.a < t.b := lt_of_le_of_lt hax h2
    rw [div_le_one (by linarith)]
    linarith
  · exact le_refl 1
  · have hbx : t.b ≤ x := not_lt.mp h2
    have hbc2 : t.b < t.c := lt_of_le_of_lt hbx h4
    rw [div_le_one (by linarith)]
    linarith
  · exact zero_le_one

/-- Every input-term membership function of the controller has ascending
parameters. -/
theorem inTerm_mf_wf (t : InTerm) : t.mf.a ≤ t.mf.b ∧ t.mf.b ≤ t.mf.c := by
  cases t <;> exact ⟨by norm_num [InTerm.mf, weather_clear, weather_rain, road_dry,
    road_wet, road_slippery, obstacle_far, obstacle_close],
    by norm_num [InTerm.mf, weather_clear, weather_rain, road_dry,
      road_wet, road_slippery, obstacle_far, obstacle_close]⟩

/-- Every output-term membership function of the controller has ascending
parameters. -/
theorem outTerm_mf_wf (t : OutTerm) : t.mf.a ≤ t.mf.b ∧ t.mf.b ≤ t.mf.c := by
  cases t <;> exact ⟨by norm_num [OutTerm.mf, speed_decrease, speed_stable, speed_increase],
    by norm_num [OutTerm.mf, speed_decrease, speed_stable, speed_increase]⟩

/-- Fire strengths are never negative. -/
theorem fireStrength_nonneg (σ : Assign) (e : AntExpr) : 0 ≤ fireStrength σ e := by
  induction e with
  | leaf t =>
      rcases h : σ t.var with _ | x
      · simp [fireStrength, h]
      · simpa [fireStrength, h] using t.mf.degree_nonneg (inTerm_mf_wf t).1 (inTerm_mf_wf t).2 x
  | and p q ihp ihq => exact le_min ihp ihq
  | or p q ihp ihq => exact le_max_of_le_left ihp

/-- Fire strengths never exceed 1. -/
theorem fireStrength_le_one (σ : Assign) (e : AntExpr) : fireStrength σ e ≤ 1 := by
  induction e with
  | leaf t =>
      rcases h : σ t.var with _ | x
      · simp [fireStrength, h]
      · simpa [fireStrength, h] using t.mf.degree_le_one (inTerm_mf_wf t).1 (inTerm_mf_wf t).2 x
  | and p q ihp ihq => exact le_trans (min_le_left _ _) ihp
  | or p q ihp ihq => exact max_le ihp ihq

/-- The seed of a running maximum bounds it from below. -/
theorem le_foldl_max (l : List ℚ) (b : ℚ) : b ≤ l.foldl max b := by
  induction l generalizing b with
  | nil => exact le_refl b
  | cons x xs ih => exact le_trans (le_max_left b x) (ih (max b x))

/-- Every member of a list bounds its running maximum from below. -/
theorem mem_le_foldl_max {l : List ℚ} {x : ℚ} (hx : x ∈ l) (b : ℚ) :
    x ≤ l.foldl max b := by
  induction l generalizing b with
  | nil => cases hx
  | cons y ys ih =>
      rcases List.mem_cons.mp hx with rfl | h
      · exact le_trans (le_max_right b x) (le_foldl_max ys (max b x))
      · exact ih h (max b y)

/-- A running maximum is bounded by any upper bound of the seed and of the
list members. -/
theorem foldl_max_le {l : List ℚ} {c : ℚ} (b : ℚ) (hb : b ≤ c)
    (h : ∀ x ∈ l, x ≤ c) : l.foldl max b ≤ c := by
  induction l generalizing b with
  | nil => exact hb
  | cons y ys ih =>
      exact ih (max b y) (max_le hb (h y (List.mem_cons_self y ys)))
        (fun x hx => h x (List.mem_cons_of_mem y hx))

/-- Aggregated strengths are never negative. -/
theorem aggStrength_nonneg (σ : Assign) (t : OutTerm) : 0 ≤ aggStrength σ t :=
  le_foldl_max _ 0

/-- A rule's fire strength is bounded by the aggregated strength of its
consequent term. -/
theorem fireStrength_le_aggStrength (σ : Assign) {r : Rule} (hr : r ∈ rules) :
    fireStrength σ r.ant ≤ aggStrength σ r.cons := by
  apply mem_le_foldl_max
  exact List.mem_map_of_mem _ (List.mem_filter.mpr ⟨hr, by simp⟩)

/-- The aggregated output degree at any sample point is never negative. -/
theorem outputDegree_nonneg (σ : Assign) (x : ℚ) : 0 ≤ outputDegree σ x :=
  le_foldl_max _ 0

/-- Each clipped term degree is never negative. -/
theorem clip_nonneg (σ : Assign) (t : OutTerm) (x : ℚ) :
    0 ≤ min (t.mf.degree_at x) (aggStrength σ t) :=
  le_min (t.mf.degree_nonneg (outTerm_mf_wf t).1 (outTerm_mf_wf t).2 x)
    (aggStrength_nonneg σ t)

/-- The fold computing the aggregated output degree agrees with the nested
maximum written in the specification. -/
theorem outputDegree_eq_specDegree (σ : Assign) (x : ℚ) :
    outputDegree σ x = specDegree σ x := by
  have h0 : outputDegree σ x
      = max (max (max 0 (min (OutTerm.decrease.mf.degree_at x) (aggStrength σ .decrease)))
          (min (OutTerm.stable.mf.degree_at x) (aggStrength σ .stable)))
        (min (OutTerm.increase.mf.degree_at x) (aggStrength σ .increase)) := rfl
  rw [h0, max_eq_right (clip_nonneg σ .decrease x), max_assoc]
  rfl

/-- The spec-side sample list coincides with the materialized universe. -/
theorem specSamples_eq : specSamples = speedUniverse := by
  unfold specSamples
  rw [show List.range 21
      = [0, 1, 2, 3, 4, 5, 6, 7, 8, 9, 10, 11, 12, 13, 14, 15, 16, 17, 18, 19, 20] from rfl]
  norm_num [speedUniverse]

/-- The centroid denominator is never negative. -/
theorem den_nonneg (σ : Assign) :
    0 ≤ (speedUniverse.map (fun x => outputDegree σ x)).sum :=
  List.sum_nonneg (by
    intro y hy
    rcases List.mem_map.mp hy with ⟨x, _, rfl⟩
    exact outputDegree_nonneg σ x)

/-- Every output term reaches degree 1 at some sample point. -/
theorem exists_peak (t : OutTerm) : ∃ x ∈ speedUniverse, t.mf.degree_at x = 1 := by
  cases t
  · exact ⟨-10, by simp [speedUniverse], by with_unfolding_all rfl⟩
  · exact ⟨0, by simp [speedUniverse], by with_unfolding_all rfl⟩
  · exact ⟨10, by simp [speedUniverse], by with_unfolding_all rfl⟩

/-- If some rule fires with positive strength, the centroid denominator is
positive. -/
theorem den_pos (σ : Assign) (h : ∃ r ∈ rules, 0 < fireStrength σ r.ant) :
    0 < (speedUniverse.map (fun x => outputDegree σ x)).sum := by
  obtain ⟨r, hr, hpos⟩ := h
  have hagg : 0 < aggStrength σ r.cons :=
    lt_of_lt_of_le hpos (fireStrength_le_aggStrength σ hr)
  obtain ⟨x0, hx0mem, hx0deg⟩ := exists_peak r.cons
  have hclip : 0 < min (r.cons.mf.degree_at x0) (aggStrength σ r.cons) := by
    rw [hx0deg]
    exact lt_min one_pos hagg
  have hcmem : r.cons ∈ outTerms := by cases r.cons <;> simp [outTerms]
  have hdeg : min (r.cons.mf.degree_at x0) (aggStrength σ r.cons) ≤ outputDegree σ x0 :=
    mem_le_foldl_max (List.mem_map_of_mem _ hcmem) 0
  have hnn : ∀ y ∈ speedUniverse.map (fun x => outputDegree σ x), 0 ≤ y := by
    intro y hy
    rcases List.mem_map.mp hy with ⟨x, _, rfl⟩
    exact outputDegree_nonneg σ x
  exact lt_of_lt_of_le (lt_of_lt_of_le hclip hdeg)
    (List.single_le_sum hnn _ (List.mem_map_of_mem _ hx0mem))

/-- If no rule fires, every aggregated strength is 0. -/
theorem agg_eq_zero (σ : Assign) (h : ∀ rl ∈ rules, fireStrength σ rl.ant = 0)
    (t : OutTerm) : aggStrength σ t = 0 := by
  refine le_antisymm (foldl_max_le 0 (le_refl 0) ?_) (aggStrength_nonneg σ t)
  intro y hy
  rcases List.mem_map.mp hy with ⟨r, hrf, rfl⟩
  exact le_of_eq (h r (List.mem_of_mem_filter hrf))

/-- If no rule fires, the aggregated output degree vanishes everywhere. -/
theorem outputDegree_eq_zero (σ : Assign)
    (h : ∀ rl ∈ rules, fireStrength σ rl.ant = 0) (x : ℚ) :
    outputDegree σ x = 0 := by
  rw [outputDegree_eq_specDegree]
  unfold specDegree
  rw [agg_eq_zero σ h, agg_eq_zero σ h, agg_eq_zero σ h,
    min_eq_right (OutTerm.decrease.mf.degree_nonneg (outTerm_mf_wf .decrease).1
      (outTerm_mf_wf .decrease).2 x),
    min_eq_right (OutTerm.stable.mf.degree_nonneg (outTerm_mf_wf .stable).1
      (outTerm_mf_wf .stable).2 x),
    min_eq_right (OutTerm.increase.mf.degree_nonneg (outTerm_mf_wf .increase).1
      (outTerm_mf_wf .increase).2 x)]
  simp

/-- Claim C1: for the output variable `speed`, whenever at least one rule
fires with positive strength, `evaluate` returns exactly the centroid of
the aggregated fuzzy output set sampled at unit steps over the integer
universe: the degree at `x` is the max over all consequent terms `t` of
`min (t.degree_at x) (aggregated strength of t)`, and the result is
`sum (x * degree x) / sum (degree x)` over all sample points. -/
theorem claim_C1 (σ : Assign) (h : ∃ r ∈ rules, 0 < fireStrength σ r.ant) :
    evaluate σ = some (specCentroid σ) := by
  have hne : (speedUniverse.map (fun x => outputDegree σ x)).sum ≠ 0 :=
    ne_of_gt (den_pos σ h)
  unfold evaluate
  rw [if_neg hne]
  unfold specCentroid
  rw [specSamples_eq]
  simp only [outputDegree_eq_specDegree]

/-- Witness for C1 at the concrete input weather=0, road=0, obstacle=100,
where rule R3 fires with strength 1. -/
theorem claim_C1_witness :
    evaluate (mkAssign 0 0 100) = some (specCentroid (mkAssign 0 0 100)) :=
  claim_C1 (mkAssign 0 0 100)
    ⟨rule3, by simp [rules], by with_unfolding_all decide⟩

/-- Claim C2: for every input assignment, the aggregated strength of each
(speed, term) consequent pair is the maximum of the fire strengths of the
rules concluding that pair: `decrease` aggregates R1, R2 and R4, `stable`
is R5 alone, `increase` is R3 alone. -/
theorem claim_C2 (σ : Assign) :
    aggStrength σ .decrease
        = max (fireStrength σ rule1.ant)
            (max (fireStrength σ rule2.ant) (fireStrength σ rule4.ant)) ∧
    aggStrength σ .stable = fireStrength σ rule5.ant ∧
    aggStrength σ .increase = fireStrength σ rule3.ant := by
  refine ⟨?_, ?_, ?_⟩
  · have h0 : aggStrength σ .decrease
        = max (max (max 0 (fireStrength σ rule1.ant)) (fireStrength σ rule2.ant))
            (fireStrength σ rule4.ant) := rfl
    rw [h0, max_eq_right (fireStrength_nonneg σ rule1.ant), max_assoc]
  · have h0 : aggStrength σ .stable = max 0 (fireStrength σ rule5.ant) := rfl
    rw [h0, max_eq_right (fireStrength_nonneg σ rule5.ant)]
  · have h0 : aggStrength σ .increase = max 0 (fireStrength σ rule3.ant) := rfl
    rw [h0, max_eq_right (fireStrength_nonneg σ rule3.ant)]

/-- Claim C3: for every complete input assignment, each rule's fire
strength is the minimum of the membership degrees of its conjoined terms
at the assigned crisp values, and always lies in [0,1]. -/
theorem claim_C3 (σ : Assign) (w r o : ℚ) (hw : σ .weather = some w)
    (hr : σ .road = some r) (ho : σ .obstacle = some o) :
    (fireStrength σ rule1.ant
        = min (road_slippery.degree_at r) (obstacle_close.degree_at o) ∧
      0 ≤ fireStrength σ rule1.ant ∧ fireStrength σ rule1.ant ≤ 1) ∧
    (fireStrength σ rule2.ant
        = min (weather_rain.degree_at w) (road_wet.degree_at r) ∧
      0 ≤ fireStrength σ rule2.ant ∧ fireStrength σ rule2.ant ≤ 1) ∧
    (fireStrength σ rule3.ant
        = min (min (road_dry.degree_at r) (weather_clear.degree_at w))
            (obstacle_far.degree_at o) ∧
      0 ≤ fireStrength σ rule3.ant ∧ fireStrength σ rule3.ant ≤ 1) ∧
    (fireStrength σ rule4.ant = obstacle_close.degree_at o ∧
      0 ≤ fireStrength σ rule4.ant ∧ fireStrength σ rule4.ant ≤ 1) ∧
    (fireStrength σ rule5.ant = road_wet.degree_at r ∧
      0 ≤ fireStrength σ rule5.ant ∧ fireStrength σ rule5.ant ≤ 1) := by
  refine ⟨⟨?_, fireStrength_nonneg σ _, fireStrength_le_one σ _⟩,
    ⟨?_, fireStrength_nonneg σ _, fireStrength_le_one σ _⟩,
    ⟨?_, fireStrength_nonneg σ _, fireStrength_le_one σ _⟩,
    ⟨?_, fireStrength_nonneg σ _, fireStrength_le_one σ _⟩,
    ⟨?_, fireStrength_nonneg σ _, fireStrength_le_one σ _⟩⟩
  · simp [fireStrength, rule1, InTerm.var, InTerm.mf, hr, ho]
  · simp [fireStrength, rule2, InTerm.var, InTerm.mf, hw, hr]
  · simp [fireStrength, rule3, InTerm.var, InTerm.mf, hw, hr, ho]
  · simp [fireStrength, rule4, InTerm.var, InTerm.mf, ho]
  · simp [fireStrength, rule5, InTerm.var, InTerm.mf, hr]

/-- Witness for C3 at the concrete assignment weather=0, road=0,
obstacle=100. -/
theorem claim_C3_witness :
    fireStrength (mkAssign 0 0 100) rule1.ant
        = min (road_slippery.degree_at 0) (obstacle_close.degree_at 100) ∧
      fireStrength (mkAssign 0 0 100) rule5.ant = road_wet.degree_at 0 := by
  have h := claim_C3 (mkAssign 0 0 100) 0 0 100 (by with_unfolding_all rfl)
    (by with_unfolding_all rfl) (by with_unfolding_all rfl)
  exact ⟨h.1.1, h.2.2.2.2.1⟩

/-- Claim C5: if no rule fires under an input assignment (the centroid
denominator is zero), the output variable `speed` is absent from the
result of `evaluate` rather than mapped to a sentinel. -/
theorem claim_C5 (σ : Assign) (h : ∀ rl ∈ rules, fireStrength σ rl.ant = 0) :
    evaluate σ = none := by
  have hz : (speedUniverse.map (fun x => outputDegree σ x)).sum = 0 :=
    List.sum_eq_zero (by
      intro y hy
      rcases List.mem_map.mp hy with ⟨x, _, rfl⟩
      exact outputDegree_eq_zero σ h x)
  unfold evaluate
  rw [if_pos hz]

/-- Witness for C5 at weather=0, road=4, obstacle=30, where every rule has
fire strength 0. -/
theorem claim_C5_witness : evaluate (mkAssign 0 4 30) = none := by
  apply claim_C5
  intro rl hrl
  fin_cases hrl <;> with_unfolding_all rfl

/-- An AND node with a vanishing left child has fire strength 0. -/
theorem and_zero_left (σ : Assign) (p q : AntExpr) (h : fireStrength σ p = 0) :
    fireStrength σ (.and p q) = 0 :=
  le_antisymm (le_trans (min_le_left (fireStrength σ p) (fireStrength σ q)) (le_of_eq h))
    (fireStrength_nonneg σ _)

/-- An AND node with a vanishing right child has fire strength 0. -/
theorem and_zero_right (σ : Assign) (p q : AntExpr) (h : fireStrength σ q = 0) :
    fireStrength σ (.and p q) = 0 :=
  le_antisymm (le_trans (min_le_right (fireStrength σ p) (fireStrength σ q)) (le_of_eq h))
    (fireStrength_nonneg σ _)

/-- A leaf whose variable is missing from the assignment has strength 0. -/
theorem leaf_zero (σ : Assign) (t : InTerm) (h : σ t.var = none) :
    fireStrength σ (.leaf t) = 0 := by
  simp [fireStrength, h]

/-- Claim C4: a triangular membership function with ascending parameters
is total with degrees in [0,1]; it is 0 strictly before `a` and strictly
after `c`, is 1 at `b`, rises linearly on [a,b] and falls linearly on
[b,c] in the non-degenerate cases, and is 0 at `a` resp. `c` whenever that
endpoint differs from `b` (a degenerate edge `a = b` or `b = c` instead
keeps degree 1 at the shared point, the spec's vertical edge). -/
theorem claim_C4 (t : Trimf) (hab : t.a ≤ t.b) (hbc : t.b ≤ t.c) :
    (∀ x : ℚ, 0 ≤ t.degree_at x ∧ t.degree_at x ≤ 1) ∧
    (∀ x : ℚ, x < t.a → t.degree_at x = 0) ∧
    (∀ x : ℚ, t.c < x → t.degree_at x = 0) ∧
    t.degree_at t.b = 1 ∧
    (t.a < t.b → ∀ x : ℚ, t.a ≤ x → x ≤ t.b →
      t.degree_at x = (x - t.a) / (t.b - t.a)) ∧
    (t.b < t.c → ∀ x : ℚ, t.b ≤ x → x ≤ t.c →
      t.degree_at x = (t.c - x) / (t.c - t.b)) ∧
    (t.a < t.b → t.degree_at t.a = 0) ∧
    (t.b < t.c → t.degree_at t.c = 0) := by
  have hb1 : t.degree_at t.b = 1 := by
    unfold Trimf.degree_at
    rw [if_neg (not_lt.mpr hab), if_neg (lt_irrefl t.b), if_pos rfl]
  refine ⟨fun x => ⟨t.degree_nonneg hab hbc x, t.degree_le_one hab hbc x⟩,
    ?_, ?_, hb1, ?_, ?_, ?_, ?_⟩
  · intro x hx
    unfold Trimf.degree_at
    rw [if_pos hx]
  · intro x hx
    unfold Trimf.degree_at
    rw [if_neg (not_lt.mpr (by linarith)), if_neg (not_lt.mpr (by linarith)),
      if_neg (by intro h; linarith [h ▸ hx]), if_neg (not_lt.mpr (le_of_lt hx))]
  · intro h x hax hxb
    rcases lt_or_eq_of_le hxb with hlt | heq
    · unfold Trimf.degree_at
      rw [if_neg (not_lt.mpr hax), if_pos hlt]
    · subst heq
      rw [hb1, eq_comm, div_eq_one_iff_eq (by intro hz; linarith [sub_eq_zero.mp hz])]
  · intro h x hbx hxc
    rcases eq_or_lt_of_le hbx with heq | hlt
    · rw [← heq, hb1, eq_comm,
        div_eq_one_iff_eq (by intro hz; linarith [sub_eq_zero.mp hz]), heq]
    · rcases lt_or_eq_of_le hxc with hlt2 | heq2
      · unfold Trimf.degree_at
        rw [if_neg (not_lt.mpr (by linarith)), if_neg (not_lt.mpr (le_of_lt hlt)),
          if_neg (ne_of_gt hlt), if_pos hlt2]
      · unfold Trimf.degree_at
        rw [if_neg (not_lt.mpr (by linarith)), if_neg (not_lt.mpr (le_of_lt hlt)),
          if_neg (ne_of_gt hlt), if_neg (not_lt.mpr (le_of_eq heq2.symm)), eq_comm,
          div_eq_zero_iff]
        left
        rw [heq2]
        exact sub_self t.c
  · intro h
    unfold Trimf.degree_at
    rw [if_neg (lt_irrefl t.a), if_pos h, sub_self, zero_div]
  · intro h
    unfold Trimf.degree_at
    rw [if_neg (not_lt.mpr (by linarith)), if_neg (not_lt.mpr (le_of_lt h)),
      if_neg (ne_of_gt h), if_neg (lt_irrefl t.c)]

/-- Witness for C4 at the concrete triangle (4, 7, 10) of `weather_rain`. -/
theorem claim_C4_witness :
    Trimf.degree_at ⟨4, 7, 10⟩ 7 = 1 ∧
    Trimf.degree_at ⟨4, 7, 10⟩ 11 = 0 ∧
    Trimf.degree_at ⟨4, 7, 10⟩ 5 = (5 - 4) / (7 - 4) := by
  have h := claim_C4 ⟨4, 7, 10⟩ (show (4 : ℚ) ≤ 7 by norm_num)
    (show (7 : ℚ) ≤ 10 by norm_num)
  exact ⟨h.2.2.2.1, h.2.2.1 11 (show (10 : ℚ) < 11 by norm_num),
    h.2.2.2.2.1 (show (4 : ℚ) < 7 by norm_num) 5 (show (4 : ℚ) ≤ 5 by norm_num)
      (show (5 : ℚ) ≤ 7 by norm_num)⟩

/-- Claim C6: if the assignment lacks a value for a variable referenced by
a rule's antecedent, that rule's fire strength is 0, and `evaluate` still
returns a result (it is total: either absence or a value, never an
error). -/
theorem claim_C6 (σ : Assign) (rl : Rule) (v : VarName) (h1 : rl ∈ rules)
    (h2 : rl.ant.mentions v = true) (h3 : σ v = none) :
    fireStrength σ rl.ant = 0 ∧ (evaluate σ = none ∨ ∃ y, evaluate σ = some y) := by
  constructor
  · fin_cases h1 <;> cases v
    · exact absurd h2 (by with_unfolding_all decide)
    · exact and_zero_left σ _ _ (leaf_zero σ .slippery h3)
    · exact and_zero_right σ _ _ (leaf_zero σ .close h3)
    · exact and_zero_left σ _ _ (leaf_zero σ .rain h3)
    · exact and_zero_right σ _ _ (leaf_zero σ .wet h3)
    · exact absurd h2 (by with_unfolding_all decide)
    · exact and_zero_left σ _ _ (and_zero_right σ _ _ (leaf_zero σ .clear h3))
    · exact and_zero_left σ _ _ (and_zero_left σ _ _ (leaf_zero σ .dry h3))
    · exact and_zero_right σ _ _ (leaf_zero σ .far h3)
    · exact absurd h2 (by with_unfolding_all decide)
    · exact absurd h2 (by with_unfolding_all decide)
    · exact leaf_zero σ .close h3
    · exact absurd h2 (by with_unfolding_all decide)
    · exact leaf_zero σ .wet h3
    · exact absurd h2 (by with_unfolding_all decide)
  · rcases hev : evaluate σ with _ | y
    · exact Or.inl rfl
    · exact Or.inr ⟨y, rfl⟩

/-- Witness for C6: rule R1 references `road`; with `road` missing its
fire strength is 0. -/
theorem claim_C6_witness : fireStrength missingRoad rule1.ant = 0 :=
  (claim_C6 missingRoad rule1 .road (by simp [rules]) (by with_unfolding_all rfl) rfl).1

/-- Claim C7: at weather=0, road=0, obstacle=100, rule R3 fires with
strength 1, no rule concluding `decrease` fires, and the crisp output is
exactly 7: positive and within 3 of +10. -/
theorem claim_C7 :
    fireStrength (mkAssign 0 0 100) rule3.ant = 1 ∧
    fireStrength (mkAssign 0 0 100) rule1.ant = 0 ∧
    fireStrength (mkAssign 0 0 100) rule2.ant = 0 ∧
    fireStrength (mkAssign 0 0 100) rule4.ant = 0 ∧
    evaluate (mkAssign 0 0 100) = some 7 ∧
    (0 : ℚ) < 7 ∧ (10 : ℚ) - 7 ≤ 3 :=
  ⟨by with_unfolding_all rfl, by with_unfolding_all rfl, by with_unfolding_all rfl,
    by with_unfolding_all rfl, by with_unfolding_all rfl, by norm_num, by norm_num⟩

/-- Claim C8: evaluating with a crisp input exactly at a universe bound
does not error, and the membership degree saturates: `close` is 1 and
`far` is 0 at obstacle=0, `far` is 1 and `close` is 0 at obstacle=100;
`evaluate` succeeds at both extremes. -/
theorem claim_C8 :
    obstacle_close.degree_at 0 = 1 ∧ obstacle_far.degree_at 0 = 0 ∧
    obstacle_far.degree_at 100 = 1 ∧ obstacle_close.degree_at 100 = 0 ∧
    (∃ y, evaluate (mkAssign 0 10 0) = some y) ∧
    (∃ y, evaluate (mkAssign 0 0 100) = some y) :=
  ⟨by with_unfolding_all rfl, by with_unfolding_all rfl, by with_unfolding_all rfl,
    by with_unfolding_all rfl, ⟨-7, by with_unfolding_all rfl⟩,
    ⟨7, by with_unfolding_all rfl⟩⟩

/-- Claim C9: each simulation tick treats an absent speed output as delta
0 and clamps the updated speed to the non-negative floor, so the vehicle
speed is at least 0 after every step, for every sensor input. -/
theorem claim_C9 (s w r o : ℚ) :
    0 ≤ carStep s w r o ∧
    (evaluate (mkAssign w r o) = none → carStep s w r o = max 0 s) := by
  constructor
  · exact le_max_left 0 _
  · intro h
    unfold carStep
    rw [h]
    simp

/-- Witness for C9 at speed 50 and the non-firing input (0, 4, 30). -/
theorem claim_C9_witness : 0 ≤ carStep 50 0 4 30 ∧ carStep 50 0 4 30 = max 0 50 :=
  ⟨(claim_C9 50 0 4 30).1, (claim_C9 50 0 4 30).2 (by with_unfolding_all rfl)⟩

/-- Claim C10: every produced speed output lies within the output universe
bounds [-10, 10], being a weighted average of sample points from that
universe; consequently, from a non-negative speed, one tick changes the
vehicle speed by at most 10. -/
theorem claim_C10 :
    (∀ (σ : Assign) (v : ℚ), evaluate σ = some v → -10 ≤ v ∧ v ≤ 10) ∧
    (∀ s w r o : ℚ, 0 ≤ s → |carStep s w r o - s| ≤ 10) := by
  have hb : ∀ (σ : Assign) (v : ℚ), evaluate σ = some v → -10 ≤ v ∧ v ≤ 10 := by
    intro σ v hv
    unfold evaluate at hv
    by_cases hz : (speedUniverse.map (fun x => outputDegree σ x)).sum = 0
    · rw [if_pos hz] at hv
      exact absurd hv (by simp)
    · rw [if_neg hz] at hv
      injection hv with hv
      subst hv
      have hden : 0 < (speedUniverse.map (fun x => outputDegree σ x)).sum :=
        lt_of_le_of_ne (den_nonneg σ) (Ne.symm hz)
      have hxb : ∀ x ∈ speedUniverse, -10 ≤ x ∧ x ≤ 10 := by
        intro x hx
        fin_cases hx <;> norm_num
      have hup : (speedUniverse.map (fun x => x * outputDegree σ x)).sum
          ≤ 10 * (speedUniverse.map (fun x => outputDegree σ x)).sum := by
        rw [← List.sum_map_mul_left]
        apply List.sum_le_sum
        intro x hx
        exact mul_le_mul_of_nonneg_right (hxb x hx).2 (outputDegree_nonneg σ x)
      have hlo : (-10) * (speedUniverse.map (fun x => outputDegree σ x)).sum
          ≤ (speedUniverse.map (fun x => x * outputDegree σ x)).sum := by
        rw [← List.sum_map_mul_left]
        apply List.sum_le_sum
        intro x hx
        exact mul_le_mul_of_nonneg_right (hxb x hx).1 (outputDegree_nonneg σ x)
      constructor
      · rw [le_div_iff₀ hden]
        calc (-10) * (speedUniverse.map (fun x => outputDegree σ x)).sum
            ≤ (speedUniverse.map (fun x => x * outputDegree σ x)).sum := hlo
          _ = _ := rfl
      · rw [div_le_iff₀ hden]
        calc (speedUniverse.map (fun x => x * outputDegree σ x)).sum
            ≤ 10 * (speedUniverse.map (fun x => outputDegree σ x)).sum := hup
          _ = _ := rfl
  refine ⟨hb, ?_⟩
  intro s w r o hs
  have hd : -10 ≤ (evaluate (mkAssign w r o)).getD 0 ∧
      (evaluate (mkAssign w r o)).getD 0 ≤ 10 := by
    rcases hev : evaluate (mkAssign w r o) with _ | y
    · constructor <;> norm_num
    · simpa using hb _ y hev
  unfold carStep
  rcases le_or_lt 0 (s + (evaluate (mkAssign w r o)).getD 0) with hpos | hneg
  · rw [max_eq_right hpos, abs_le]
    constructor <;> linarith [hd.1, hd.2]
  · rw [max_eq_left (le_of_lt hneg), abs_le]
    constructor <;> linarith [hd.1, hd.2]

/-- Witness for C10: the produced output 7 at (0, 0, 100) lies in
[-10, 10], and from speed 50 the tick changes speed by at most 10. -/
theorem claim_C10_witness :
    ((-10 : ℚ) ≤ 7 ∧ (7 : ℚ) ≤ 10) ∧ |carStep 50 0 0 100 - 50| ≤ 10 :=
  ⟨claim_C10.1 (mkAssign 0 0 100) 7 (by with_unfolding_all rfl),
    claim_C10.2 50 0 0 100 (by norm_num)⟩

end ML3
